import Mathlib

/-!
Verification of the Fibonacci-lookahead prefetch traversal (`prefetch.c`).

The embedding is a direct translation of the source:

* `inc_ring` / `dec_ring` are the ring-navigation helpers, parameterised by
  the ring size `n` (`NAHEAD` in the source).
* `reduceSub` models the `while (v >= len) v -= len;` loops; it is written
  with explicit fuel (`v` passes suffice, each pass removes `len ≥ 1`).
  For `len = 0` the source loop does not terminate; the model returns `v`.
* `seedRing` models the seeding loop that fills the ring with the first `n`
  reduced Fibonacci terms.
* `fibo_lookahead_foreach` models the traversal.  The C function receives an
  opaque `long *data` plus two function pointers, so the embedding is
  polymorphic in the data type `α`; the operations are `α → Nat → α`.
* `nop`, `prefetch` and `increment` are the three concrete operations.
  `__builtin_prefetch` is a cache hint with no observable effect on memory
  contents, so its model leaves the buffer unchanged, exactly like `nop`.
-/

namespace PrefetchC

/-- C `inc_ring`: `next = i + 1; return next >= NAHEAD ? 0 : next;`. -/
def inc_ring (n i : Nat) : Nat :=
  if n ≤ i + 1 then 0 else i + 1

/-- C `dec_ring`: `next = i + NAHEAD - 1; return next >= NAHEAD ? next - NAHEAD : next;`. -/
def dec_ring (n i : Nat) : Nat :=
  if n ≤ i + n - 1 then i + n - 1 - n else i + n - 1

/-- Fuelled body of the `while (v >= len) v -= len;` loops.  The `0 < len`
guard makes the function total: with `len = 0` the source loop would spin
forever, the model returns `v` unchanged. -/
def reduceSubFuel (len : Nat) : Nat → Nat → Nat
  | 0, v => v
  | fuel + 1, v => if len ≤ v ∧ 0 < len then reduceSubFuel len fuel (v - len) else v

/-- Repeated subtraction of `len` until the value drops below `len`.
`v` units of fuel always suffice because every pass removes `len ≥ 1`. -/
def reduceSub (len v : Nat) : Nat := reduceSubFuel len v v

/-- The seeding loop of `fibo_lookahead_foreach`:
`buf[i] = index; temp = index; index += follow; follow = temp;` followed by
the reduction of `index`, repeated for the remaining `k` slots. -/
def seedLoop (len : Nat) : Nat → Nat → Nat → List Nat
  | 0, _, _ => []
  | k + 1, index, follow => index :: seedLoop len k (reduceSub len (index + follow)) index

/-- The seeded ring: `k = n` slots starting from `index = 1`, `follow = 0`. -/
def seedRing (len n : Nat) : List Nat := seedLoop len n 1 0

/-- The loop state of `fibo_lookahead_foreach`: the ring `buf`, the cursor
`i_buf`, and the caller's data (opaque to the traversal). -/
structure FiboState (α : Type) where
  ring : List Nat
  iBuf : Nat
  data : α
  deriving DecidableEq

/-- One iteration of the traversal loop:
`op_lowest(data, buf[i_buf]);` then
`buf[i_buf] = buf[prev] + buf[dec_ring(prev)]` with `prev = dec_ring(i_buf)`,
reduced in place, then `op_highest(data, buf[i_buf]);` and
`i_buf = inc_ring(i_buf);`. -/
def fibo_step {α : Type} (len n : Nat) (op_highest op_lowest : α → Nat → α)
    (s : FiboState α) : FiboState α :=
  let data1 := op_lowest s.data (s.ring.getD s.iBuf 0)
  let prev := dec_ring n s.iBuf
  let ring1 := s.ring.set s.iBuf
    (reduceSub len (s.ring.getD prev 0 + s.ring.getD (dec_ring n prev) 0))
  let data2 := op_highest data1 (ring1.getD s.iBuf 0)
  ⟨ring1, inc_ring n s.iBuf, data2⟩

/-- The traversal loop, `k` iterations. -/
def fibo_iter {α : Type} (len n : Nat) (op_highest op_lowest : α → Nat → α) :
    Nat → FiboState α → FiboState α
  | 0, s => s
  | k + 1, s => fibo_iter len n op_highest op_lowest k (fibo_step len n op_highest op_lowest s)

/-- C `fibo_lookahead_foreach`, with the compile-time constants `LEN`,
`ITERS`, `NAHEAD` made explicit parameters `len`, `iters`, `n`:
seed the ring, reset `i_buf` to `0`, run `iters` iterations, and return the
final data. -/
def fibo_lookahead_foreach {α : Type} (len iters n : Nat)
    (op_highest op_lowest : α → Nat → α) (data : α) : α :=
  (fibo_iter len n op_highest op_lowest iters ⟨seedRing len n, 0, data⟩).data

/-- C `nop`: no effect. -/
def nop (data : List Int) (_ : Nat) : List Int := data

/-- C `prefetch`: `__builtin_prefetch(&data[index])` is a non-blocking cache
hint with no observable effect on the buffer contents. -/
def prefetch (data : List Int) (_ : Nat) : List Int := data

/-- C `increment`: `data[index]++`. -/
def increment (data : List Int) (index : Nat) : List Int :=
  data.set index (data.getD index 0 + 1)

/-- Instrumentation operation: record an index passed to `op_lowest`. -/
def logLow (acc : List Nat × List Nat) (index : Nat) : List Nat × List Nat :=
  (acc.1 ++ [index], acc.2)

/-- Instrumentation operation: record an index passed to `op_highest`. -/
def logHigh (acc : List Nat × List Nat) (index : Nat) : List Nat × List Nat :=
  (acc.1, acc.2 ++ [index])

/-! ### Pure ring dynamics

The ring evolution does not depend on the data or the operations, so it can
be described by a pure step function on `(ring, i_buf)` pairs, together with
the sequences of indices handed to `op_lowest` (`lowTrace`) and to
`op_highest` (`highTrace`). -/

/-- The value handed to `op_lowest`: `buf[i_buf]`. -/
def consumed (rs : List Nat × Nat) : Nat := rs.1.getD rs.2 0

/-- The ring/cursor part of one traversal iteration. -/
def ring_step (len n : Nat) (rs : List Nat × Nat) : List Nat × Nat :=
  let prev := dec_ring n rs.2
  (rs.1.set rs.2 (reduceSub len (rs.1.getD prev 0 + rs.1.getD (dec_ring n prev) 0)),
    inc_ring n rs.2)

/-- The value handed to `op_highest`: `buf[i_buf]` after the store. -/
def generated (len n : Nat) (rs : List Nat × Nat) : Nat :=
  (ring_step len n rs).1.getD rs.2 0

/-- Indices handed to `op_lowest` over `k` iterations. -/
def lowTrace (len n : Nat) : Nat → (List Nat × Nat) → List Nat
  | 0, _ => []
  | k + 1, rs => consumed rs :: lowTrace len n k (ring_step len n rs)

/-- Indices handed to `op_highest` over `k` iterations. -/
def highTrace (len n : Nat) : Nat → (List Nat × Nat) → List Nat
  | 0, _ => []
  | k + 1, rs => generated len n rs :: highTrace len n k (ring_step len n rs)

/-! ### Basic lemmas -/

theorem reduceSubFuel_eq_mod (len : Nat) (hlen : 0 < len) :
    ∀ fuel v, v ≤ fuel → reduceSubFuel len fuel v = v % len := by
  intro fuel
  induction fuel with
  | zero =>
    intro v hv
    interval_cases v
    simp [reduceSubFuel, Nat.zero_mod]
  | succ fuel ih =>
    intro v hv
    rw [reduceSubFuel]
    by_cases h : len ≤ v
    · rw [if_pos ⟨h, hlen⟩, ih (v - len) (by omega)]
      exact (Nat.mod_eq_sub_mod h).symm
    · rw [if_neg (by tauto), Nat.mod_eq_of_lt (by omega)]

theorem reduceSub_eq_mod (len v : Nat) (hlen : 0 < len) : reduceSub len v = v % len :=
  reduceSubFuel_eq_mod len hlen v v le_rfl

theorem reduceSub_lt (len v : Nat) (hlen : 0 < len) : reduceSub len v < len := by
  rw [reduceSub_eq_mod len v hlen]
  exact Nat.mod_lt _ hlen

theorem inc_ring_lt (n i : Nat) (hn : 0 < n) : inc_ring n i < n := by
  unfold inc_ring
  split <;> omega

/-! ### Claim theorems (first group) -/

/-- C1: swapping the lookahead operation between `nop` and `prefetch`, with
`op_lowest = increment`, never changes the final data-buffer contents: the
prefetch hint has no observable effect on memory, so both runs compute the
same function of the initial buffer. -/
theorem prefetch_nop_same_result (len iters n : Nat) (data : List Int)
    (hlen : 1 < len) (hn : 0 < n) :
    fibo_lookahead_foreach len iters n prefetch increment data
      = fibo_lookahead_foreach len iters n nop increment data := rfl

theorem prefetch_nop_same_result_witness :
    1 < 10 ∧ 0 < 3 ∧
      fibo_lookahead_foreach 10 5 3 prefetch increment (List.replicate 10 0)
        = fibo_lookahead_foreach 10 5 3 nop increment (List.replicate 10 0) :=
  ⟨by decide, by decide,
    prefetch_nop_same_result 10 5 3 (List.replicate 10 0) (by decide) (by decide)⟩

/-- C4: for every ring size `n > 0` and position `i < n`, `inc_ring` and
`dec_ring` are mutual inverses. -/
theorem inc_dec_ring_inverse (n i : Nat) (hn : 0 < n) (hi : i < n) :
    dec_ring n (inc_ring n i) = i ∧ inc_ring n (dec_ring n i) = i := by
  unfold inc_ring dec_ring
  constructor
  · split <;> split <;> omega
  · split <;> split <;> omega

theorem inc_dec_ring_inverse_witness :
    0 < 5 ∧ 3 < 5 ∧ dec_ring 5 (inc_ring 5 3) = 3 ∧ inc_ring 5 (dec_ring 5 3) = 3 := by
  refine ⟨by decide, by decide, inc_dec_ring_inverse 5 3 (by decide) (by decide)⟩

/-- C6: with `buffer_length = 10` and `lookahead_depth = 3` the seeded ring
is `[1, 1, 2]`; after one traversal iteration with `op_lowest = increment`
(and `nop` as the lookahead operation) slot 0 holds
`ring[2] + ring[1] = 3 < 10`, and the only buffer change is one increment at
index `1`, the pre-iteration value of slot 0. -/
theorem concrete_first_iteration :
    seedRing 10 3 = [1, 1, 2] ∧
    (seedRing 10 3).getD 2 0 + (seedRing 10 3).getD 1 0 = 3 ∧ 3 < 10 ∧
    (fibo_iter 10 3 nop increment 1 ⟨seedRing 10 3, 0, List.replicate 10 0⟩).ring
      = [3, 1, 2] ∧
    (fibo_iter 10 3 nop increment 1 ⟨seedRing 10 3, 0, List.replicate 10 0⟩).data
      = (List.replicate 10 (0 : Int)).set 1 1 := by decide

/-! ### Connecting the traversal to the pure ring dynamics -/

theorem fibo_iter_log (len n : Nat) :
    ∀ (k : Nat) (ring : List Nat) (i : Nat) (lo hi : List Nat),
      (fibo_iter len n logHigh logLow k ⟨ring, i, (lo, hi)⟩).data
        = (lo ++ lowTrace len n k (ring, i), hi ++ highTrace len n k (ring, i)) := by
  intro k
  induction k with
  | zero => intro ring i lo hi; simp [fibo_iter, lowTrace, highTrace]
  | succ k ih =>
    intro ring i lo hi
    have hstep : fibo_step len n logHigh logLow ⟨ring, i, (lo, hi)⟩
        = ⟨(ring_step len n (ring, i)).1, (ring_step len n (ring, i)).2,
            (lo ++ [consumed (ring, i)], hi ++ [generated len n (ring, i)])⟩ := rfl
    rw [fibo_iter, hstep, ih]
    rw [lowTrace, highTrace]
    simp

/-- Running the traversal with the logging operations yields exactly the
index traces. -/
theorem fibo_log_eq (len iters n : Nat) :
    fibo_lookahead_foreach len iters n logHigh logLow (([], []) : List Nat × List Nat)
      = (lowTrace len n iters (seedRing len n, 0),
          highTrace len n iters (seedRing len n, 0)) := by
  unfold fibo_lookahead_foreach
  rw [fibo_iter_log]
  simp

/-- When the lookahead operation leaves the data unchanged, the final data is
a left fold of the current-index operation over the consumed-index trace. -/
theorem fibo_iter_data_foldl {α : Type} (len n : Nat) (f : α → Nat → α) :
    ∀ (k : Nat) (ring : List Nat) (i : Nat) (d : α),
      (fibo_iter len n (fun d _ => d) f k ⟨ring, i, d⟩).data
        = (lowTrace len n k (ring, i)).foldl f d := by
  intro k
  induction k with
  | zero => intro ring i d; simp [fibo_iter, lowTrace]
  | succ k ih =>
    intro ring i d
    have hstep : fibo_step len n (fun d _ => d) f ⟨ring, i, d⟩
        = ⟨(ring_step len n (ring, i)).1, (ring_step len n (ring, i)).2,
            f d (consumed (ring, i))⟩ := rfl
    rw [fibo_iter, hstep, ih, lowTrace]
    simp [List.foldl_cons]

/-! ### Range invariants -/

theorem getD_lt_of_forall (l : List Nat) (i len : Nat)
    (h : ∀ x ∈ l, x < len) (hlen : 0 < len) : l.getD i 0 < len := by
  by_cases hi : i < l.length
  · rw [List.getD_eq_getElem l 0 hi]
    exact h _ (List.getElem_mem hi)
  · rw [List.getD_eq_default l 0 (by omega)]
    exact hlen

theorem ring_step_all_lt (len n : Nat) (rs : List Nat × Nat)
    (h : ∀ x ∈ rs.1, x < len) (hlen : 0 < len) :
    ∀ x ∈ (ring_step len n rs).1, x < len := by
  intro x hx
  rcases List.mem_or_eq_of_mem_set hx with h1 | h2
  · exact h x h1
  · subst h2; exact reduceSub_lt len _ hlen

theorem consumed_lt (len : Nat) (rs : List Nat × Nat)
    (h : ∀ x ∈ rs.1, x < len) (hlen : 0 < len) : consumed rs < len :=
  getD_lt_of_forall rs.1 rs.2 len h hlen

theorem generated_lt (len n : Nat) (rs : List Nat × Nat)
    (h : ∀ x ∈ rs.1, x < len) (hlen : 0 < len) : generated len n rs < len :=
  getD_lt_of_forall _ rs.2 len (ring_step_all_lt len n rs h hlen) hlen

theorem lowTrace_all_lt (len n : Nat) :
    ∀ (k : Nat) (rs : List Nat × Nat), (∀ x ∈ rs.1, x < len) → 0 < len →
      ∀ x ∈ lowTrace len n k rs, x < len := by
  intro k
  induction k with
  | zero => intro rs _ _ x hx; simp [lowTrace] at hx
  | succ k ih =>
    intro rs hrs hlen x hx
    rw [lowTrace] at hx
    rcases List.mem_cons.mp hx with h1 | h2
    · subst h1; exact consumed_lt len rs hrs hlen
    · exact ih _ (ring_step_all_lt len n rs hrs hlen) hlen x h2

theorem highTrace_all_lt (len n : Nat) :
    ∀ (k : Nat) (rs : List Nat × Nat), (∀ x ∈ rs.1, x < len) → 0 < len →
      ∀ x ∈ highTrace len n k rs, x < len := by
  intro k
  induction k with
  | zero => intro rs _ _ x hx; simp [highTrace] at hx
  | succ k ih =>
    intro rs hrs hlen x hx
    rw [highTrace] at hx
    rcases List.mem_cons.mp hx with h1 | h2
    · subst h1; exact generated_lt len n rs hrs hlen
    · exact ih _ (ring_step_all_lt len n rs hrs hlen) hlen x h2

theorem seedLoop_all_lt (len : Nat) :
    ∀ (k index follow : Nat), index < len →
      ∀ x ∈ seedLoop len k index follow, x < len := by
  intro k
  induction k with
  | zero => intro index follow _ x hx; simp [seedLoop] at hx
  | succ k ih =>
    intro index follow hidx x hx
    rw [seedLoop] at hx
    rcases List.mem_cons.mp hx with h1 | h2
    · omega
    · exact ih _ _ (reduceSub_lt len _ (by omega)) x h2

theorem seedRing_all_lt (len n : Nat) (hlen : 1 < len) :
    ∀ x ∈ seedRing len n, x < len :=
  seedLoop_all_lt len n 1 0 (by omega)

/-! ### Claim theorems (second group) -/

/-- C5 (amended: `L > 1`): after seeding with ring size `N > 0` and modulus
`L > 1`, every seeded slot value lies in `[0, L)`. -/
theorem seed_values_in_range (N L : Nat) (hN : 0 < N) (hL : 1 < L) :
    ∀ x ∈ seedRing L N, x < L :=
  seedRing_all_lt L N hL

theorem seed_values_in_range_witness :
    0 < 3 ∧ 1 < 10 ∧ 2 ∈ seedRing 10 3 ∧ 2 < 10 := by
  have hmem : 2 ∈ seedRing 10 3 := by decide
  exact ⟨by decide, by decide, hmem, seed_values_in_range 3 10 (by decide) (by decide) 2 hmem⟩

/-- C5 counterexample: with ring size `N = 1` and modulus `L = 1` the seeded
slot holds `1`, which is not in `[0, 1)` — the claim fails for `L = 1`
because the first seed value is stored before any reduction runs. -/
theorem seed_values_in_range_cex : ¬ (∀ x ∈ seedRing 1 1, x < 1) := by decide

/-- C2 (amended: `len > 1`): for every buffer length `len > 1`, lookahead
depth `n > 0` and iteration count `iters`, every index the traversal hands to
`op_lowest` or to `op_highest` (observed through the logging operations) is
strictly below `len`. -/
theorem traversal_indices_in_range (len iters n : Nat) (hlen : 1 < len) (hn : 0 < n) :
    ∀ x,
      (x ∈ (fibo_lookahead_foreach len iters n logHigh logLow
              (([], []) : List Nat × List Nat)).1 ∨
       x ∈ (fibo_lookahead_foreach len iters n logHigh logLow
              (([], []) : List Nat × List Nat)).2) → x < len := by
  rw [fibo_log_eq]
  intro x hx
  rcases hx with h1 | h2
  · exact lowTrace_all_lt len n iters _ (seedRing_all_lt len n hlen) (by omega) x h1
  · exact highTrace_all_lt len n iters _ (seedRing_all_lt len n hlen) (by omega) x h2

theorem traversal_indices_in_range_witness :
    1 < 10 ∧ 0 < 3 ∧
      (2 ∈ (fibo_lookahead_foreach 10 5 3 logHigh logLow
              (([], []) : List Nat × List Nat)).1 ∨
       2 ∈ (fibo_lookahead_foreach 10 5 3 logHigh logLow
              (([], []) : List Nat × List Nat)).2) ∧
      2 < 10 := by
  have hmem : 2 ∈ (fibo_lookahead_foreach 10 5 3 logHigh logLow
      (([], []) : List Nat × List Nat)).1 := by decide
  exact ⟨by decide, by decide, Or.inl hmem,
    traversal_indices_in_range 10 5 3 (by decide) (by decide) 2 (Or.inl hmem)⟩

/-- C2 counterexample: with `len = 1`, `n = 1`, `iters = 1` the traversal
hands the index `1` to `op_lowest`, and `1 < 1` is false — the claim fails
for buffer length `1`. -/
theorem traversal_indices_in_range_cex :
    ¬ (∀ x,
        (x ∈ (fibo_lookahead_foreach 1 1 1 logHigh logLow
                (([], []) : List Nat × List Nat)).1 ∨
         x ∈ (fibo_lookahead_foreach 1 1 1 logHigh logLow
                (([], []) : List Nat × List Nat)).2) → x < 1) := by
  intro h
  exact absurd (h 1 (Or.inl (by decide))) (by decide)

/-! ### Reading and writing single ring slots -/

theorem getD_set_self {α : Type} (l : List α) (i : Nat) (a dflt : α) (hi : i < l.length) :
    (l.set i a).getD i dflt = a := by
  rw [List.getD_eq_getElem _ dflt (by simpa using hi)]
  simp

theorem getD_set_ne {α : Type} (l : List α) (i j : Nat) (a dflt : α) (hij : i ≠ j) :
    (l.set i a).getD j dflt = l.getD j dflt := by
  rw [List.getD_eq_getElem?_getD, List.getElem?_set_ne hij, ← List.getD_eq_getElem?_getD]

/-- The per-iteration contract exactly as the specification words it: first
invoke `op_lowest` with the old `ring[i_buf]`; compute the new value as
`ring[retreat(i_buf)] + ring[retreat(retreat(i_buf))]` reduced into
`[0, len)` (mathematical remainder); store it into `ring[i_buf]`; invoke
`op_highest` with that stored reduced value; advance `i_buf`. -/
def fibo_step_spec {α : Type} (len n : Nat) (op_highest op_lowest : α → Nat → α)
    (s : FiboState α) : FiboState α :=
  let data1 := op_lowest s.data (s.ring.getD s.iBuf 0)
  let prev := dec_ring n s.iBuf
  let v := (s.ring.getD prev 0 + s.ring.getD (dec_ring n prev) 0) % len
  let data2 := op_highest data1 v
  ⟨s.ring.set s.iBuf v, inc_ring n s.iBuf, data2⟩

/-! ### Claim theorems (third group) -/

/-- C3: every traversal iteration follows the stated contract: for `len > 0`
and a cursor inside the ring, the source's step (operate on the old
`ring[i_buf]`, overwrite it with the repeated-subtraction reduction of the
sum of the two newest slots, hand the freshly stored slot value to
`op_highest`, advance) coincides with the specification step, in which the
reduction into `[0, len)` is the mathematical remainder and `op_highest`
receives exactly the stored reduced value. -/
theorem step_meets_contract {α : Type} (len n : Nat) (op_highest op_lowest : α → Nat → α)
    (s : FiboState α) (hlen : 0 < len) (hi : s.iBuf < s.ring.length) :
    fibo_step len n op_highest op_lowest s = fibo_step_spec len n op_highest op_lowest s := by
  simp only [fibo_step, fibo_step_spec]
  rw [getD_set_self _ _ _ _ hi, reduceSub_eq_mod _ _ hlen]

theorem step_meets_contract_witness :
    0 < 10 ∧
    (FiboState.iBuf ⟨[1, 1, 2], 0, List.replicate 10 (0 : Int)⟩
      < (FiboState.ring ⟨([1, 1, 2] : List Nat), 0, List.replicate 10 (0 : Int)⟩).length) ∧
    fibo_step 10 3 nop increment ⟨[1, 1, 2], 0, List.replicate 10 0⟩
      = fibo_step_spec 10 3 nop increment ⟨[1, 1, 2], 0, List.replicate 10 0⟩ :=
  ⟨by decide, by decide,
    step_meets_contract 10 3 nop increment ⟨[1, 1, 2], 0, List.replicate 10 0⟩
      (by decide) (by decide)⟩

/-- C9: when every ring slot is below `len` (and `len > 1`, `n > 0`), the
un-reduced new value — the sum of the two slots the step adds — is strictly
below `2 * len`; consequently the repeated-subtraction loop performs at most
one subtraction and agrees with reduction modulo `len`. -/
theorem reduction_one_subtraction (len n : Nat) (ring : List Nat) (iBuf : Nat)
    (hlen : 1 < len) (hn : 0 < n) (hring : ∀ x ∈ ring, x < len) :
    ring.getD (dec_ring n iBuf) 0 + ring.getD (dec_ring n (dec_ring n iBuf)) 0 < 2 * len ∧
    reduceSub len
        (ring.getD (dec_ring n iBuf) 0 + ring.getD (dec_ring n (dec_ring n iBuf)) 0)
      = (ring.getD (dec_ring n iBuf) 0 + ring.getD (dec_ring n (dec_ring n iBuf)) 0) % len ∧
    reduceSub len
        (ring.getD (dec_ring n iBuf) 0 + ring.getD (dec_ring n (dec_ring n iBuf)) 0)
      = (if len ≤ ring.getD (dec_ring n iBuf) 0 + ring.getD (dec_ring n (dec_ring n iBuf)) 0
          then ring.getD (dec_ring n iBuf) 0 + ring.getD (dec_ring n (dec_ring n iBuf)) 0 - len
          else ring.getD (dec_ring n iBuf) 0 + ring.getD (dec_ring n (dec_ring n iBuf)) 0) := by
  have ha := getD_lt_of_forall ring (dec_ring n iBuf) len hring (by omega)
  have hb := getD_lt_of_forall ring (dec_ring n (dec_ring n iBuf)) len hring (by omega)
  set a := ring.getD (dec_ring n iBuf) 0 with hadef
  set b := ring.getD (dec_ring n (dec_ring n iBuf)) 0 with hbdef
  have hsum : a + b < 2 * len := by omega
  have hmod : reduceSub len (a + b) = (a + b) % len := reduceSub_eq_mod len (a + b) (by omega)
  refine ⟨hsum, hmod, ?_⟩
  rw [hmod]
  by_cases h : len ≤ a + b
  · rw [if_pos h, Nat.mod_eq_sub_mod h, Nat.mod_eq_of_lt (by omega)]
  · rw [if_neg h, Nat.mod_eq_of_lt (by omega)]

theorem reduction_one_subtraction_witness :
    1 < 10 ∧ 0 < 3 ∧ (∀ x ∈ ([7, 6, 9] : List Nat), x < 10) ∧
    (([7, 6, 9] : List Nat).getD (dec_ring 3 0) 0
        + ([7, 6, 9] : List Nat).getD (dec_ring 3 (dec_ring 3 0)) 0 < 2 * 10 ∧
      reduceSub 10 (([7, 6, 9] : List Nat).getD (dec_ring 3 0) 0
          + ([7, 6, 9] : List Nat).getD (dec_ring 3 (dec_ring 3 0)) 0)
        = (([7, 6, 9] : List Nat).getD (dec_ring 3 0) 0
            + ([7, 6, 9] : List Nat).getD (dec_ring 3 (dec_ring 3 0)) 0) % 10 ∧
      reduceSub 10 (([7, 6, 9] : List Nat).getD (dec_ring 3 0) 0
          + ([7, 6, 9] : List Nat).getD (dec_ring 3 (dec_ring 3 0)) 0)
        = (if 10 ≤ ([7, 6, 9] : List Nat).getD (dec_ring 3 0) 0
              + ([7, 6, 9] : List Nat).getD (dec_ring 3 (dec_ring 3 0)) 0
            then ([7, 6, 9] : List Nat).getD (dec_ring 3 0) 0
              + ([7, 6, 9] : List Nat).getD (dec_ring 3 (dec_ring 3 0)) 0 - 10
            else ([7, 6, 9] : List Nat).getD (dec_ring 3 0) 0
              + ([7, 6, 9] : List Nat).getD (dec_ring 3 (dec_ring 3 0)) 0)) :=
  ⟨by decide, by decide, by decide,
    reduction_one_subtraction 10 3 [7, 6, 9] 0 (by decide) (by decide) (by decide)⟩

/-! ### FIFO structure of the ring

`window n rs` lists the ring values in consumption order, starting at the
cursor: the next `n` values the traversal will hand to `op_lowest` if no new
value were generated.  One traversal step consumes its head and appends the
newly generated value. -/

theorem seedLoop_length (len : Nat) :
    ∀ (k index follow : Nat), (seedLoop len k index follow).length = k := by
  intro k
  induction k with
  | zero => intro index follow; simp [seedLoop]
  | succ k ih => intro index follow; simp [seedLoop, ih]

theorem seedRing_length (len n : Nat) : (seedRing len n).length = n :=
  seedLoop_length len n 1 0

/-- The ring values in consumption order, starting at the cursor. -/
def window (n : Nat) (rs : List Nat × Nat) : List Nat :=
  (List.range n).map (fun d => rs.1.getD ((rs.2 + d) % n) 0)

theorem window_length (n : Nat) (rs : List Nat × Nat) : (window n rs).length = n := by
  simp [window]

theorem window_getElem (n : Nat) (rs : List Nat × Nat) (d : Nat)
    (h : d < (window n rs).length) :
    (window n rs)[d] = rs.1.getD ((rs.2 + d) % n) 0 := by
  simp [window]

theorem add_mod_ne (a s n : Nat) (ha : a < n) (hs1 : 0 < s) (hs2 : s < n) :
    (a + s) % n ≠ a := by
  by_cases h : a + s < n
  · rw [Nat.mod_eq_of_lt h]; omega
  · rw [Nat.mod_eq_sub_mod (by omega), Nat.mod_eq_of_lt (by omega)]; omega

theorem inc_ring_add_mod (n i d : Nat) (hi : i < n) :
    (inc_ring n i + d) % n = (i + 1 + d) % n := by
  unfold inc_ring
  split
  · have h : i + 1 = n := by omega
    rw [h, Nat.zero_add, Nat.add_comm n d, Nat.add_mod_right]
  · rfl

theorem window_start (n : Nat) (l : List Nat) (h : l.length = n) : window n (l, 0) = l := by
  apply List.ext_getElem
  · simp [window_length, h]
  · intro d h1 h2
    have hd : d < n := by simpa [window_length] using h1
    rw [window_getElem]
    rw [Nat.zero_add, Nat.mod_eq_of_lt hd]
    exact List.getD_eq_getElem l 0 h2

theorem window_cons (n : Nat) (rs : List Nat × Nat) (hi : rs.2 < n) :
    window n rs = consumed rs :: (window n rs).drop 1 := by
  apply List.ext_getElem
  · simp [window_length]; omega
  · intro i h1 h2
    have hn : 0 < n := by omega
    match i with
    | 0 =>
      rw [List.getElem_cons_zero, window_getElem]
      rw [Nat.add_zero, Nat.mod_eq_of_lt hi]
      rfl
    | d + 1 =>
      rw [List.getElem_cons_succ, List.getElem_drop, window_getElem, window_getElem]
      rw [Nat.add_comm 1 d]

theorem window_shift (len n : Nat) (rs : List Nat × Nat)
    (hlen : rs.1.length = n) (hi : rs.2 < n) :
    window n (ring_step len n rs) = (window n rs).drop 1 ++ [generated len n rs] := by
  apply List.ext_getElem
  · simp [window_length]; omega
  · intro d h1 h2
    have hd : d < n := by simpa [window_length] using h1
    rw [window_getElem]
    have hsnd : (ring_step len n rs).2 = inc_ring n rs.2 := rfl
    have hfst : (ring_step len n rs).1
        = rs.1.set rs.2
            (reduceSub len
              (rs.1.getD (dec_ring n rs.2) 0 + rs.1.getD (dec_ring n (dec_ring n rs.2)) 0)) := rfl
    rw [hsnd, inc_ring_add_mod n rs.2 d hi]
    by_cases hcase : d < n - 1
    · rw [List.getElem_append_left (show d < ((window n rs).drop 1).length by
        simp [window_length]; omega)]
      rw [List.getElem_drop, window_getElem]
      have hne : rs.2 ≠ (rs.2 + 1 + d) % n := by
        have h := add_mod_ne rs.2 (1 + d) n hi (by omega) (by omega)
        rw [← Nat.add_assoc] at h
        exact fun hc => h hc.symm
      rw [hfst, getD_set_ne _ _ _ _ _ hne]
      rw [Nat.add_assoc rs.2 1 d]
    · have hmod : (rs.2 + 1 + d) % n = rs.2 := by
        have h : rs.2 + 1 + d = rs.2 + n := by omega
        rw [h, Nat.add_mod_right, Nat.mod_eq_of_lt hi]
      rw [hmod]
      rw [List.getElem_append_right (show ((window n rs).drop 1).length ≤ d by
        simp [window_length]; omega)]
      have hidx : d - ((window n rs).drop 1).length = 0 := by
        simp [window_length]; omega
      simp only [hidx, List.getElem_cons_zero]
      rfl

theorem lowTrace_take (len n : Nat) :
    ∀ (k : Nat) (rs : List Nat × Nat), rs.1.length = n → rs.2 < n →
      lowTrace len n k rs = (window n rs ++ highTrace len n k rs).take k := by
  intro k
  induction k with
  | zero => intro rs _ _; simp [lowTrace]
  | succ k ih =>
    intro rs hlen hi
    rw [lowTrace, highTrace]
    conv_rhs => rw [window_cons n rs hi]
    rw [List.cons_append, List.take_succ_cons]
    congr 1
    have hassoc :
        (window n rs).drop 1
            ++ generated len n rs :: highTrace len n k (ring_step len n rs)
          = ((window n rs).drop 1 ++ [generated len n rs])
              ++ highTrace len n k (ring_step len n rs) := by
      simp
    rw [hassoc, ← window_shift len n rs hlen hi]
    exact ih (ring_step len n rs) (by simp [ring_step, hlen])
      (inc_ring_lt n rs.2 (by omega))

/-! ### Claim theorems (fourth group) -/

/-- C8 (amended): the cursor `i_buf` always designates the *oldest* value in
the ring (not necessarily the numerically smallest once reduction wraps), and
a newly generated value is the *newest*: equivalently the ring is a FIFO
queue, so the sequence of values handed to `op_lowest` is exactly the seed
sequence followed by the generated values in generation order. -/
theorem ring_fifo_oldest (len iters n : Nat) (hn : 0 < n) :
    (fibo_lookahead_foreach len iters n logHigh logLow
        (([], []) : List Nat × List Nat)).1
      = (seedRing len n
          ++ (fibo_lookahead_foreach len iters n logHigh logLow
                (([], []) : List Nat × List Nat)).2).take iters := by
  rw [fibo_log_eq]
  dsimp only
  rw [lowTrace_take len n iters (seedRing len n, 0) (seedRing_length len n) hn,
    window_start n (seedRing len n) (seedRing_length len n)]

theorem ring_fifo_oldest_witness :
    0 < 3 ∧
      (fibo_lookahead_foreach 10 4 3 logHigh logLow
          (([], []) : List Nat × List Nat)).1
        = (seedRing 10 3
            ++ (fibo_lookahead_foreach 10 4 3 logHigh logLow
                  (([], []) : List Nat × List Nat)).2).take 4 :=
  ⟨by decide, ring_fifo_oldest 10 4 3 (by decide)⟩

/-- C8 counterexample: with `len = 10`, `n = 3`, after four iterations the
ring is `[3, 5, 8]` with `i_buf = 1`: the slot at `i_buf` holds `5`, yet the
ring also holds `3 < 5`, so `ring[i_buf]` is not the smallest value; and the
value generated in the fourth iteration is `13` reduced to `3`, while `8` is
still in the ring, so a newly generated value is not always the largest. -/
theorem ring_smallest_largest_cex :
    (∃ x ∈ (fibo_iter 10 3 nop increment 4 ⟨seedRing 10 3, 0, List.replicate 10 0⟩).ring,
        x < (fibo_iter 10 3 nop increment 4
              ⟨seedRing 10 3, 0, List.replicate 10 0⟩).ring.getD
                (fibo_iter 10 3 nop increment 4
                  ⟨seedRing 10 3, 0, List.replicate 10 0⟩).iBuf 0) ∧
    (∃ y ∈ (fibo_iter 10 3 nop increment 3 ⟨seedRing 10 3, 0, List.replicate 10 0⟩).ring,
        generated 10 3
            ((fibo_iter 10 3 nop increment 3 ⟨seedRing 10 3, 0, List.replicate 10 0⟩).ring,
              (fibo_iter 10 3 nop increment 3
                ⟨seedRing 10 3, 0, List.replicate 10 0⟩).iBuf) < y) := by
  decide

/-! ### Effect of the increment operation -/

theorem increment_length (d : List Int) (i : Nat) : (increment d i).length = d.length := by
  simp [increment]

theorem increment_sum (d : List Int) : ∀ i, i < d.length → (increment d i).sum = d.sum + 1 := by
  induction d with
  | nil => intro i hi; simp at hi
  | cons x t ih =>
    intro i hi
    cases i with
    | zero => simp [increment]; omega
    | succ i =>
      have hi' : i < t.length := by simpa using hi
      have ht := ih i hi'
      simp only [increment] at ht ⊢
      simp only [List.getD_cons_succ, List.set_cons_succ, List.sum_cons]
      omega

theorem increment_getD_ne (d : List Int) (i j : Nat) (hij : j ≠ i) :
    (increment d i).getD j 0 = d.getD j 0 :=
  getD_set_ne d i j _ 0 (fun h => hij h.symm)

theorem foldl_increment_sum :
    ∀ (L : List Nat) (d : List Int), (∀ i ∈ L, i < d.length) →
      (L.foldl increment d).sum = d.sum + L.length := by
  intro L
  induction L with
  | nil => intro d _; simp
  | cons i L ih =>
    intro d hall
    have hi : i < d.length := hall i (List.mem_cons_self i L)
    have hall' : ∀ j ∈ L, j < (increment d i).length := by
      intro j hj
      rw [increment_length]
      exact hall j (List.mem_cons_of_mem i hj)
    rw [List.foldl_cons, ih (increment d i) hall', increment_sum d i hi]
    simp only [List.length_cons]
    push_cast
    ring

theorem foldl_increment_getD_not_mem :
    ∀ (L : List Nat) (d : List Int) (j : Nat), j ∉ L →
      (L.foldl increment d).getD j 0 = d.getD j 0 := by
  intro L
  induction L with
  | nil => intro d j _; simp
  | cons i L ih =>
    intro d j hj
    have hji : j ≠ i := fun h => hj (h ▸ List.mem_cons_self i L)
    have hjL : j ∉ L := fun h => hj (List.mem_cons_of_mem i h)
    rw [List.foldl_cons, ih (increment d i) j hjL, increment_getD_ne d i j hji]

theorem lowTrace_length (len n : Nat) :
    ∀ (k : Nat) (rs : List Nat × Nat), (lowTrace len n k rs).length = k := by
  intro k
  induction k with
  | zero => intro rs; simp [lowTrace]
  | succ k ih => intro rs; simp [lowTrace, ih]

/-! ### Claim theorems (fifth group) -/

/-- C10: with `op_lowest = increment` and `op_highest` one of `nop` and
`prefetch`, a run over a buffer of length `len > 1` mutates the buffer only
by incrementing the current-index element once per iteration: every element
whose index is never selected as a current index is unchanged, and the total
of all buffer elements grows by exactly `iters`. -/
theorem increment_frame_and_sum (len iters n : Nat) (data : List Int)
    (op_highest : List Int → Nat → List Int)
    (hlen : 1 < len) (hn : 0 < n) (hdata : data.length = len)
    (hop : op_highest = nop ∨ op_highest = prefetch) :
    (fibo_lookahead_foreach len iters n op_highest increment data).sum
        = data.sum + iters ∧
    ∀ j, j ∉ (fibo_lookahead_foreach len iters n logHigh logLow
                (([], []) : List Nat × List Nat)).1 →
      (fibo_lookahead_foreach len iters n op_highest increment data).getD j 0
        = data.getD j 0 := by
  have hid : op_highest = (fun d _ => d) := by
    rcases hop with h | h <;> (subst h; rfl)
  subst hid
  have hrun : fibo_lookahead_foreach len iters n (fun d _ => d) increment data
      = (lowTrace len n iters (seedRing len n, 0)).foldl increment data := by
    unfold fibo_lookahead_foreach
    exact fibo_iter_data_foldl len n increment iters (seedRing len n) 0 data
  have hlog : (fibo_lookahead_foreach len iters n logHigh logLow
      (([], []) : List Nat × List Nat)).1 = lowTrace len n iters (seedRing len n, 0) := by
    rw [fibo_log_eq]
  have hbound : ∀ i ∈ lowTrace len n iters (seedRing len n, 0), i < data.length := by
    intro i hi
    rw [hdata]
    exact lowTrace_all_lt len n iters _ (seedRing_all_lt len n hlen) (by omega) i hi
  constructor
  · rw [hrun, foldl_increment_sum _ _ hbound, lowTrace_length]
  · intro j hj
    rw [hlog] at hj
    rw [hrun]
    exact foldl_increment_getD_not_mem _ _ _ hj

theorem increment_frame_and_sum_witness :
    1 < 10 ∧ 0 < 3 ∧ (List.replicate 10 (0 : Int)).length = 10 ∧
      (fibo_lookahead_foreach 10 3 3 nop increment (List.replicate 10 0)).sum
        = (List.replicate 10 (0 : Int)).sum + 3 ∧
      5 ∉ (fibo_lookahead_foreach 10 3 3 logHigh logLow
            (([], []) : List Nat × List Nat)).1 ∧
      (fibo_lookahead_foreach 10 3 3 nop increment (List.replicate 10 0)).getD 5 0
        = (List.replicate 10 (0 : Int)).getD 5 0 := by
  have h := increment_frame_and_sum 10 3 3 (List.replicate 10 0) nop
    (by decide) (by decide) (by decide) (Or.inl rfl)
  have hj : 5 ∉ (fibo_lookahead_foreach 10 3 3 logHigh logLow
      (([], []) : List Nat × List Nat)).1 := by decide
  exact ⟨by decide, by decide, by decide, h.1, hj, h.2 5 hj⟩

/-! ### Monotonicity of increment folds -/

theorem foldl_increment_length :
    ∀ (L : List Nat) (d : List Int), (L.foldl increment d).length = d.length := by
  intro L
  induction L with
  | nil => intro d; rfl
  | cons i L ih => intro d; rw [List.foldl_cons, ih, increment_length]

theorem increment_getD_ge (d : List Int) (i j : Nat) :
    d.getD j 0 ≤ (increment d i).getD j 0 := by
  by_cases hij : j = i
  · subst hij
    by_cases hj : j < d.length
    · rw [increment, getD_set_self d j _ 0 hj]
      omega
    · have h1 : d.length ≤ j := by omega
      rw [increment, List.getD_eq_default (d.set j (d.getD j 0 + 1)) 0 (by simpa using h1),
        List.getD_eq_default d 0 h1]
  · rw [increment, getD_set_ne d i j _ 0 (fun h => hij h.symm)]

theorem foldl_increment_getD_ge :
    ∀ (L : List Nat) (d : List Int) (j : Nat),
      d.getD j 0 ≤ (L.foldl increment d).getD j 0 := by
  intro L
  induction L with
  | nil => intro d j; exact le_refl _
  | cons i L ih =>
    intro d j
    rw [List.foldl_cons]
    exact le_trans (increment_getD_ge d i j) (ih (increment d i) j)

theorem foldl_increment_getD_pos :
    ∀ (L : List Nat) (d : List Int) (j : Nat), j ∈ L → 0 ≤ d.getD j 0 → j < d.length →
      0 < (L.foldl increment d).getD j 0 := by
  intro L
  induction L with
  | nil => intro d j hj _ _; simp at hj
  | cons i L ih =>
    intro d j hj hd hlen
    rw [List.foldl_cons]
    by_cases hij : j = i
    · subst hij
      have h1 : (increment d j).getD j 0 = d.getD j 0 + 1 := by
        rw [increment, getD_set_self d j _ 0 hlen]
      have h2 := foldl_increment_getD_ge L (increment d j) j
      omega
    · have hjL : j ∈ L := by
        rcases List.mem_cons.mp hj with h | h
        · exact absurd h hij
        · exact h
      have hd2 : 0 ≤ (increment d i).getD j 0 := le_trans hd (increment_getD_ge d i j)
      have hlen2 : j < (increment d i).length := by rw [increment_length]; exact hlen
      exact ih (increment d i) j hjL hd2 hlen2

/-- A consumed index stays consumed when the traversal runs longer: the trace
of `a` iterations is a prefix of the trace of `a + b` iterations. -/
theorem lowTrace_mono (len n b : Nat) :
    ∀ (a : Nat) (rs : List Nat × Nat) (j : Nat),
      j ∈ lowTrace len n a rs → j ∈ lowTrace len n (a + b) rs := by
  intro a
  induction a with
  | zero => intro rs j hj; simp [lowTrace] at hj
  | succ a ih =>
    intro rs j hj
    have hab : a + 1 + b = (a + b) + 1 := by omega
    rw [hab, lowTrace]
    rw [lowTrace] at hj
    rcases List.mem_cons.mp hj with h | h
    · subst h; exact List.mem_cons_self _ _
    · exact List.mem_cons_of_mem _ (ih (ring_step len n rs) j h)

/-- The ring/cursor dynamics iterated `k` times. -/
def ring_iter (len n : Nat) : Nat → (List Nat × Nat) → List Nat × Nat
  | 0, rs => rs
  | k + 1, rs => ring_iter len n k (ring_step len n rs)

/-- The consumed-index trace of `a + b` iterations splits at iteration `a`. -/
theorem lowTrace_add (len n : Nat) :
    ∀ (a b : Nat) (rs : List Nat × Nat),
      lowTrace len n (a + b) rs
        = lowTrace len n a rs ++ lowTrace len n b (ring_iter len n a rs) := by
  intro a
  induction a with
  | zero =>
    intro b rs
    rw [Nat.zero_add]
    rfl
  | succ a ih =>
    intro b rs
    have hab : a + 1 + b = (a + b) + 1 := by omega
    rw [hab, lowTrace]
    have h1 : lowTrace len n (a + 1) rs
        = consumed rs :: lowTrace len n a (ring_step len n rs) := rfl
    have h2 : ring_iter len n (a + 1) rs = ring_iter len n a (ring_step len n rs) := rfl
    rw [h1, h2, List.cons_append, ih]

set_option maxRecDepth 8000 in
theorem ring_iter_50 :
    ring_iter 50 4 50 (seedRing 50 4, 0) = (([23, 22, 24, 49], 2) : List Nat × Nat) := by
  decide

set_option maxRecDepth 8000 in
theorem ring_iter_100 :
    ring_iter 50 4 50 (([23, 22, 24, 49], 2) : List Nat × Nat)
      = (([1, 26, 27, 3], 0) : List Nat × Nat) := by decide

set_option maxRecDepth 8000 in
theorem trace_chunk1 :
    lowTrace 50 4 50 (seedRing 50 4, 0)
      = [1, 1, 2, 3, 5, 8, 13, 21, 34, 5, 39, 44, 33, 27, 10, 37, 47, 34, 31, 15, 46, 11, 7, 18, 25, 43, 18, 11, 29, 40, 19, 9, 28, 37, 15, 2, 17, 19, 36, 5, 41, 46, 37, 33, 20, 3, 23, 26, 49, 25] := by decide

set_option maxRecDepth 8000 in
theorem trace_chunk2 :
    lowTrace 50 4 50 (([23, 22, 24, 49], 2) : List Nat × Nat)
      = [24, 49, 23, 22, 45, 17, 12, 29, 41, 20, 11, 31, 42, 23, 15, 38, 3, 41, 44, 35, 29, 14, 43, 7, 0, 7, 7, 14, 21, 35, 6, 41, 47, 38, 35, 23, 8, 31, 39, 20, 9, 29, 38, 17, 5, 22, 27, 49, 26, 25] := by decide

set_option maxRecDepth 8000 in
theorem trace_chunk3 :
    lowTrace 50 4 47 (([1, 26, 27, 3], 0) : List Nat × Nat)
      = [1, 26, 27, 3, 30, 33, 13, 46, 9, 5, 14, 19, 33, 2, 35, 37, 22, 9, 31, 40, 21, 11, 32, 43, 25, 18, 43, 11, 4, 15, 19, 34, 3, 37, 40, 27, 17, 44, 11, 5, 16, 21, 37, 8, 45, 3, 48] := by decide

/-- The first 147 consumed indices, assembled from three chunks. -/
theorem trace_147_chunks :
    lowTrace 50 4 147 (seedRing 50 4, 0)
      = [1, 1, 2, 3, 5, 8, 13, 21, 34, 5, 39, 44, 33, 27, 10, 37, 47, 34, 31, 15, 46, 11, 7, 18, 25, 43, 18, 11, 29, 40, 19, 9, 28, 37, 15, 2, 17, 19, 36, 5, 41, 46, 37, 33, 20, 3, 23, 26, 49, 25]
        ++ ([24, 49, 23, 22, 45, 17, 12, 29, 41, 20, 11, 31, 42, 23, 15, 38, 3, 41, 44, 35, 29, 14, 43, 7, 0, 7, 7, 14, 21, 35, 6, 41, 47, 38, 35, 23, 8, 31, 39, 20, 9, 29, 38, 17, 5, 22, 27, 49, 26, 25]
            ++ [1, 26, 27, 3, 30, 33, 13, 46, 9, 5, 14, 19, 33, 2, 35, 37, 22, 9, 31, 40, 21, 11, 32, 43, 25, 18, 43, 11, 4, 15, 19, 34, 3, 37, 40, 27, 17, 44, 11, 5, 16, 21, 37, 8, 45, 3, 48]) := by
  have e1 : (147 : Nat) = 50 + 97 := by norm_num
  rw [e1, lowTrace_add, trace_chunk1, ring_iter_50]
  have e2 : (97 : Nat) = 50 + 47 := by norm_num
  rw [e2, lowTrace_add, trace_chunk2, ring_iter_100, trace_chunk3]

set_option maxRecDepth 8000 in
/-- Every index below 50 occurs in one of the three trace chunks. -/
theorem cover_chunks :
    ∀ m, m < 50 →
      m ∈ ([1, 1, 2, 3, 5, 8, 13, 21, 34, 5, 39, 44, 33, 27, 10, 37, 47, 34, 31, 15, 46, 11, 7, 18, 25, 43, 18, 11, 29, 40, 19, 9, 28, 37, 15, 2, 17, 19, 36, 5, 41, 46, 37, 33, 20, 3, 23, 26, 49, 25] : List Nat) ∨
      m ∈ ([24, 49, 23, 22, 45, 17, 12, 29, 41, 20, 11, 31, 42, 23, 15, 38, 3, 41, 44, 35, 29, 14, 43, 7, 0, 7, 7, 14, 21, 35, 6, 41, 47, 38, 35, 23, 8, 31, 39, 20, 9, 29, 38, 17, 5, 22, 27, 49, 26, 25] : List Nat) ∨
      m ∈ ([1, 26, 27, 3, 30, 33, 13, 46, 9, 5, 14, 19, 33, 2, 35, 37, 22, 9, 31, 40, 21, 11, 32, 43, 25, 18, 43, 11, 4, 15, 19, 34, 3, 37, 40, 27, 17, 44, 11, 5, 16, 21, 37, 8, 45, 3, 48] : List Nat) := by decide

set_option maxRecDepth 8000 in
set_option maxHeartbeats 1000000 in
/-- C7: in the concrete case `buffer_length = 50`, `iterations = 5000`,
`lookahead_depth = 4`, with `op_lowest = increment` starting from an all-zero
buffer, every counter in the final buffer (of length 50) is positive: every
index in `[0, 50)` is selected as the current index at least once — in fact
already within the first 147 iterations, and counters never decrease. -/
theorem coverage_concrete :
    (fibo_lookahead_foreach 50 5000 4 nop increment (List.replicate 50 0)).length = 50 ∧
    ∀ j, j < 50 →
      0 < (fibo_lookahead_foreach 50 5000 4 nop increment (List.replicate 50 0)).getD j 0 := by
  have hnop : nop = (fun (d : List Int) (_ : Nat) => d) := rfl
  have hrun : fibo_lookahead_foreach 50 5000 4 nop increment (List.replicate 50 0)
      = (lowTrace 50 4 5000 (seedRing 50 4, 0)).foldl increment (List.replicate 50 0) := by
    rw [hnop]
    unfold fibo_lookahead_foreach
    exact fibo_iter_data_foldl 50 4 increment 5000 (seedRing 50 4) 0 _
  constructor
  · rw [hrun, foldl_increment_length]
    simp
  · intro j hj
    have hmem : j ∈ lowTrace 50 4 5000 (seedRing 50 4, 0) := by
      have h : (5000 : Nat) = 147 + 4853 := by norm_num
      rw [h]
      refine lowTrace_mono 50 4 4853 147 _ j ?_
      rw [trace_147_chunks]
      rcases cover_chunks j hj with h | h | h
      · exact List.mem_append_left _ h
      · exact List.mem_append_right _ (List.mem_append_left _ h)
      · exact List.mem_append_right _ (List.mem_append_right _ h)
    have h0 : (List.replicate 50 (0 : Int)).getD j 0 = 0 := by
      rw [List.getD_eq_getElem?_getD, List.getElem?_replicate]
      split <;> rfl
    rw [hrun]
    refine foldl_increment_getD_pos _ _ j hmem ?_ ?_
    · rw [h0]
    · rw [List.length_replicate]
      exact hj

theorem coverage_concrete_witness :
    7 < 50 ∧
      0 < (fibo_lookahead_foreach 50 5000 4 nop increment (List.replicate 50 0)).getD 7 0 :=
  ⟨by decide, coverage_concrete.2 7 (by decide)⟩

end PrefetchC
